import Mathlib

set_option linter.unusedSectionVars false
set_option linter.unusedVariables false

/-
  Verification development for the IK/FK pose-matching engine in
  `Ash/rig_ui.py` (rotation minimizer, space converter, pole resolver,
  chain matcher helpers).

  Modelling conventions.
  The Python source mutates Blender pose bones in place; here every
  mutation is explicit state passing.  A joint is reduced to the two
  fields the rotation minimizer touches: its declared rotation
  representation (`rotation_mode`) and the first component of
  `rotation_axis_angle`.  The scene recomputation performed by
  `bpy.context.scene.update()` is abstracted into an oracle
  `g : angle -> distance` giving the tail distance produced by posing the
  IK joint at a given angle; the oracle is pure, which matches the source
  because the distance there is a deterministic function of the posed
  angle.  Floating point numbers are modelled by an arbitrary linear
  ordered field (instantiated at ℚ for executable witnesses and at ℝ when
  the constant π itself matters).  The `while` loops of the source are
  modelled with an explicit fuel argument; all theorems either hold for
  every fuel or carry a hypothesis making the fuel large enough that the
  loop exits through one of its own exits, never through fuel exhaustion.
-/

namespace RigUI

/-- The rotation representation declared on a pose bone
(`pose_bone.rotation_mode` in the source).  The rotation minimizer only
distinguishes `AXIS_ANGLE` from everything else, so the remaining Blender
modes are collapsed into two representative constructors. -/
inductive RotMode where
  | axisAngle
  | quaternion
  | euler
deriving DecidableEq, Repr

/-- The state of the single IK joint mutated by the rotation minimizer:
its rotation mode and `rotation_axis_angle[0]`. -/
structure Joint (α : Type) where
  mode : RotMode
  angle : α
deriving DecidableEq, Repr

variable {α : Type} [LinearOrderedField α]

/-- Embedding of `tail_distance(angle, bone_ik, bone_fk)` (rig_ui.py lines
42-55).  It saves the rotation mode, forces `AXIS_ANGLE`, poses the joint
at `angle`, reads the tail distance (the oracle `g`), restores the saved
rotation mode, and returns the distance together with the mutated joint.
Note that the posed angle is *not* restored, exactly as in the source. -/
def tail_distance (g : α → α) (angle : α) (bone_ik : Joint α) : α × Joint α :=
  let rot_mod := bone_ik.mode
  let bone_ik :=
    if rot_mod ≠ RotMode.axisAngle then { bone_ik with mode := RotMode.axisAngle } else bone_ik
  let bone_ik := { bone_ik with angle := angle }
  let dv := g bone_ik.angle
  let bone_ik := { bone_ik with mode := rot_mod }
  (dv, bone_ik)

/-- The `while` loop of `find_min_range` (rig_ui.py lines 67-75), with the
saved entry rotation mode `rot_mod`, the starting angle, the step `delta`
and the window half-width `twoPi` (the constant `2*pi` of the source)
passed explicitly.  The loop would run at most `⌈twoPi/delta⌉` iterations
in the source; the fuel argument makes that termination explicit. -/
def find_min_range_loop (f : α → Joint α → α × Joint α) (rot_mod : RotMode)
    (start_angle delta twoPi : α) :
    Nat → α → Joint α → Option (α × α) × Joint α
  | 0, _, bone_ik => (none, bone_ik)
  | fuel + 1, angle, bone_ik =>
    if start_angle - twoPi < angle ∧ angle < start_angle + twoPi then
      let p1 := f (angle - delta) bone_ik
      let p2 := f angle p1.2
      let p3 := f (angle + delta) p2.2
      if min (min p1.1 p2.1) p3.1 = p2.1 then
        (some (angle - delta, angle + delta), { p3.2 with mode := rot_mod })
      else
        find_min_range_loop f rot_mod start_angle delta twoPi fuel (angle + delta) p3.2
    else
      (none, bone_ik)

/-- Embedding of `find_min_range(bone_ik, bone_fk, f=tail_distance,
delta=pi/8)` (rig_ui.py lines 57-75).  `delta` is the scan step (the
source default is π/8) and `twoPi` the window half-width (the source
constant 2π).  On the bracket-found exit the saved rotation mode is
restored; when the window is exhausted the loop falls through and the
function returns `none` *without* restoring the mode, exactly as in the
source. -/
def find_min_range (f : α → Joint α → α × Joint α) (delta twoPi : α) (fuel : Nat)
    (bone_ik : Joint α) : Option (α × α) × Joint α :=
  let rot_mod := bone_ik.mode
  let bone_ik :=
    if rot_mod ≠ RotMode.axisAngle then { bone_ik with mode := RotMode.axisAngle } else bone_ik
  let start_angle := bone_ik.angle
  find_min_range_loop f rot_mod start_angle delta twoPi fuel start_angle bone_ik

/-- Embedding of `ternarySearch(f, left, right, bone_ik, bone_fk,
absolutePrecision)` (rig_ui.py lines 77-93).  The source loops `while
True`; the fuel argument makes termination explicit and `none` marks fuel
exhaustion (unreachable for positive precision and enough fuel, since the
bracket width shrinks by the factor 2/3 at every step). -/
def ternarySearch (f : α → Joint α → α × Joint α) (absolutePrecision : α) :
    Nat → α → α → Joint α → Option α × Joint α
  | 0, _, _, bone_ik => (none, bone_ik)
  | fuel + 1, left, right, bone_ik =>
    if |right - left| < absolutePrecision then
      (some ((left + right) / 2), bone_ik)
    else
      let leftThird := left + (right - left) / 3
      let rightThird := right - (right - left) / 3
      let pl := f leftThird bone_ik
      let pr := f rightThird pl.2
      if pl.1 > pr.1 then
        ternarySearch f absolutePrecision fuel leftThird right pr.2
      else
        ternarySearch f absolutePrecision fuel left rightThird pr.2

/-- Embedding of `correct_rotation(bone_ik, bone_fk)` (rig_ui.py lines
209-220).  The source computes `alfarange = find_min_range(...)` and then
immediately evaluates `alfarange[0]`; when `find_min_range` falls off its
window it returns Python `None`, so that subscript raises an uncaught
`TypeError`.  `Except.error` models that exception, carrying the joint
state at the moment it is raised.  The ternary-search precision is the
source literal `0.1`. -/
def correct_rotation (g : α → α) (delta twoPi : α) (fuel1 fuel2 : Nat)
    (bone_ik : Joint α) : Except (Joint α) (Joint α) :=
  match find_min_range (tail_distance g) delta twoPi fuel1 bone_ik with
  | (none, bone_ik) => Except.error bone_ik
  | (some alfarange, bone_ik) =>
    match ternarySearch (tail_distance g) (1 / 10) fuel2 alfarange.1 alfarange.2 bone_ik with
    | (none, bone_ik) => Except.error bone_ik
    | (some alfamin, bone_ik) =>
      let rot_mod := bone_ik.mode
      let bone_ik :=
        if rot_mod ≠ RotMode.axisAngle then { bone_ik with mode := RotMode.axisAngle } else bone_ik
      let bone_ik := { bone_ik with angle := alfamin }
      let bone_ik := { bone_ik with mode := rot_mod }
      Except.ok bone_ik

/-- The acceptance test of the bracket scan at a scan position `x`: the
center sample is a (non-strict) minimum of the three samples
`g (x-delta), g x, g (x+delta)`. -/
def accepts (g : α → α) (delta x : α) : Prop :=
  g x ≤ g (x - delta) ∧ g x ≤ g (x + delta)

instance accepts_decidable (g : α → α) (delta x : α) [DecidableEq α] :
    Decidable (accepts g delta x) :=
  inferInstanceAs (Decidable (_ ∧ _))

theorem Joint.angle_mk (m : RotMode) (a : α) : (Joint.mk m a).angle = a := rfl

theorem Joint.mode_mk (m : RotMode) (a : α) : (Joint.mk m a).mode = m := rfl

theorem tail_distance_fst (g : α → α) (a : α) (j : Joint α) :
    (tail_distance g a j).1 = g a := rfl

theorem tail_distance_mode (g : α → α) (a : α) (j : Joint α) :
    ((tail_distance g a j).2).mode = j.mode := rfl

theorem tail_distance_angle (g : α → α) (a : α) (j : Joint α) :
    ((tail_distance g a j).2).angle = a := rfl

theorem min3_eq_center_iff (l c r : α) : min (min l c) r = c ↔ c ≤ l ∧ c ≤ r := by
  constructor
  · intro h
    constructor
    · calc c = min (min l c) r := h.symm
        _ ≤ min l c := min_le_left _ _
        _ ≤ l := min_le_left _ _
    · calc c = min (min l c) r := h.symm
        _ ≤ r := min_le_right _ _
  · rintro ⟨hl, hr⟩
    rw [min_eq_right hl, min_eq_left hr]

/-- Full characterization of the scanning loop of `find_min_range`: with
positive step and window and enough fuel, the loop returns the bracket
`(a - delta, a + delta)` exactly when `a` is the *first* scan position —
reached by repeatedly adding `delta` to the start, never subtracting —
that lies below the upper window bound and whose center sample is a
non-strict minimum of its three samples. -/
theorem find_min_range_loop_some_iff (g : α → α) (rm : RotMode) (start delta twoPi : α)
    (hd : 0 < delta) (hw : 0 < twoPi) :
    ∀ (fuel : Nat) (angle : α) (j : Joint α) (lo hi : α),
      start ≤ angle →
      start + twoPi ≤ angle + (fuel : α) * delta →
      (((find_min_range_loop (tail_distance g) rm start delta twoPi fuel angle j).1
          = some (lo, hi)) ↔
        ∃ k : Nat, angle + (k : α) * delta < start + twoPi ∧
          lo = angle + (k : α) * delta - delta ∧ hi = angle + (k : α) * delta + delta ∧
          accepts g delta (angle + (k : α) * delta) ∧
          ∀ m : Nat, m < k → ¬ accepts g delta (angle + (m : α) * delta)) := by
  intro fuel
  induction fuel with
  | zero =>
    intro angle j lo hi hsa hfuel
    simp only [Nat.cast_zero, zero_mul, add_zero] at hfuel
    simp only [find_min_range_loop]
    constructor
    · intro h
      exact absurd h (by simp)
    · rintro ⟨k, hk, -⟩
      have hknn : 0 ≤ (k : α) * delta := mul_nonneg (Nat.cast_nonneg k) hd.le
      linarith
  | succ n ih =>
    intro angle j lo hi hsa hfuel
    have hwin_lo : start - twoPi < angle := by linarith
    by_cases hup : angle < start + twoPi
    · simp only [find_min_range_loop]
      rw [if_pos (And.intro hwin_lo hup)]
      simp only [tail_distance_fst]
      by_cases hacc : accepts g delta angle
      · have hcond : min (min (g (angle - delta)) (g angle)) (g (angle + delta)) = g angle :=
          (min3_eq_center_iff _ _ _).mpr hacc
        rw [if_pos hcond]
        simp only [Option.some.injEq, Prod.mk.injEq]
        constructor
        · rintro ⟨rfl, rfl⟩
          refine ⟨0, ?_, by push_cast; ring, by push_cast; ring, ?_, ?_⟩
          · simpa using hup
          · simpa using hacc
          · intro m hm
            exact absurd hm (Nat.not_lt_zero m)
        · rintro ⟨k, hk1, hlo, hhi, hkacc, hmin⟩
          rcases Nat.eq_zero_or_pos k with rfl | hkpos
          · simp only [Nat.cast_zero, zero_mul, add_zero] at hlo hhi
            exact ⟨hlo.symm, hhi.symm⟩
          · exact absurd (by simpa using hacc) (by simpa using hmin 0 hkpos)
      · have hcond : ¬ min (min (g (angle - delta)) (g angle)) (g (angle + delta)) = g angle :=
          fun h => hacc ((min3_eq_center_iff _ _ _).mp h)
        rw [if_neg hcond]
        rw [ih (angle + delta) _ lo hi (by linarith)
          (by push_cast at hfuel ⊢; linarith)]
        constructor
        · rintro ⟨k, hk1, hlo, hhi, hkacc, hmin⟩
          refine ⟨k + 1, ?_, ?_, ?_, ?_, ?_⟩
          · push_cast
            linarith
          · push_cast
            linarith
          · push_cast
            linarith
          · have he : angle + ((k : α) + 1) * delta = angle + delta + (k : α) * delta := by ring
            push_cast
            rw [he]
            exact hkacc
          · intro m hm
            match m with
            | 0 => simpa using hacc
            | m' + 1 =>
              have hm' : m' < k := by omega
              have he : angle + ((m' : α) + 1) * delta = angle + delta + (m' : α) * delta := by
                ring
              push_cast
              rw [he]
              exact hmin m' hm'
        · rintro ⟨k, hk1, hlo, hhi, hkacc, hmin⟩
          match k with
          | 0 => exact absurd (by simpa using hkacc) hacc
          | k' + 1 =>
            have he : angle + ((k' : α) + 1) * delta = angle + delta + (k' : α) * delta := by ring
            push_cast at hk1 hlo hhi hkacc
            rw [he] at hk1 hlo hhi hkacc
            refine ⟨k', hk1, hlo, hhi, hkacc, ?_⟩
            intro m hm
            have hmk : m + 1 < k' + 1 := by omega
            have hme : angle + ((m : α) + 1) * delta = angle + delta + (m : α) * delta := by ring
            have := hmin (m + 1) hmk
            push_cast at this
            rw [hme] at this
            exact this
    · simp only [find_min_range_loop]
      rw [if_neg (fun hc => hup hc.2)]
      constructor
      · intro h
        exact absurd h (by simp)
      · rintro ⟨k, hk, -⟩
        have hknn : 0 ≤ (k : α) * delta := mul_nonneg (Nat.cast_nonneg k) hd.le
        linarith

/-- Unfolding `find_min_range` to its loop: the saved mode is the entry
mode, the start angle is the entry angle, and the loop starts on the
joint with its mode forced to `AXIS_ANGLE`. -/
theorem find_min_range_eq_loop (f : α → Joint α → α × Joint α) (delta twoPi : α) (fuel : Nat)
    (j : Joint α) :
    find_min_range f delta twoPi fuel j =
      find_min_range_loop f j.mode j.angle delta twoPi fuel j.angle
        (Joint.mk RotMode.axisAngle j.angle) := by
  by_cases h : j.mode = RotMode.axisAngle
  · simp only [find_min_range, h]
    simp
    cases j with
    | mk m a => simp_all
  · simp [find_min_range, h]

/-- If the scan never accepts any reachable position, `find_min_range`
returns no bracket (given enough fuel to exhaust the window). -/
theorem find_min_range_none_of_no_accept (g : α → α) (delta twoPi : α) (fuel : Nat)
    (j : Joint α) (hd : 0 < delta) (hw : 0 < twoPi) (hfuel : twoPi ≤ (fuel : α) * delta)
    (hno : ∀ k : Nat, ¬ accepts g delta (j.angle + (k : α) * delta)) :
    (find_min_range (tail_distance g) delta twoPi fuel j).1 = none := by
  cases h : (find_min_range (tail_distance g) delta twoPi fuel j).1 with
  | none => rfl
  | some p =>
    rw [← Prod.mk.eta (p := p)] at h
    rw [find_min_range_eq_loop] at h
    obtain ⟨k, -, -, -, hacc, -⟩ :=
      (find_min_range_loop_some_iff g j.mode j.angle delta twoPi hd hw fuel j.angle
        (Joint.mk RotMode.axisAngle j.angle) p.1 p.2 le_rfl (by linarith)).mp h
    exact absurd hacc (hno k)

/-- Whenever the scanning loop falls through without a bracket, it hands
back the joint with the same rotation mode it was given (the restore on
the success exit is never executed). -/
theorem find_min_range_loop_mode_of_none (g : α → α) (rm : RotMode)
    (start delta twoPi : α) :
    ∀ (fuel : Nat) (angle : α) (j : Joint α),
      ((find_min_range_loop (tail_distance g) rm start delta twoPi fuel angle j).1 = none) →
      ((find_min_range_loop (tail_distance g) rm start delta twoPi fuel angle j).2).mode
        = j.mode := by
  intro fuel
  induction fuel with
  | zero => intro angle j _; rfl
  | succ n ih =>
    intro angle j h
    simp only [find_min_range_loop] at h ⊢
    by_cases hc : start - twoPi < angle ∧ angle < start + twoPi
    · rw [if_pos hc] at h ⊢
      simp only [tail_distance_fst] at h ⊢
      by_cases hmin :
          min (min (g (angle - delta)) (g angle)) (g (angle + delta)) = g angle
      · rw [if_pos hmin] at h
        exact absurd h (by simp)
      · rw [if_neg hmin] at h ⊢
        exact (ih _ _ h).trans rfl
    · rw [if_neg hc] at h ⊢

/-- On the no-bracket exit, `find_min_range` leaves the joint in
`AXIS_ANGLE` mode — the entry mode is *not* restored on that path. -/
theorem find_min_range_mode_of_none (g : α → α) (delta twoPi : α) (fuel : Nat)
    (j : Joint α)
    (h : (find_min_range (tail_distance g) delta twoPi fuel j).1 = none) :
    ((find_min_range (tail_distance g) delta twoPi fuel j).2).mode = RotMode.axisAngle := by
  rw [find_min_range_eq_loop] at h ⊢
  exact find_min_range_loop_mode_of_none g j.mode j.angle delta twoPi fuel j.angle
    (Joint.mk RotMode.axisAngle j.angle) h

/-- The acceptance test the claim describes instead: the center sample is
the *unique, strictly smallest* of the three samples. -/
def strictly_accepts (g : α → α) (delta x : α) : Prop :=
  g x < g (x - delta) ∧ g x < g (x + delta)

/-- The identity oracle (strictly increasing tail distance) never lets
any scan position accept. -/
theorem no_accept_of_id (delta : α) (hd : 0 < delta) (x : α) :
    ¬ accepts (fun t : α => t) delta x := by
  rintro ⟨h1, -⟩
  simp only at h1
  linarith

/-- Shared concrete run: the strictly increasing oracle `g t = t` with
step 1/8 and window half-width 2 (sixteen scan steps, the same iteration
structure as the source constants π/8 and 2π) exhausts the window. -/
theorem fmr_id_none :
    (find_min_range (tail_distance (fun t : ℚ => t)) (1/8) 2 32
      (Joint.mk RotMode.quaternion 0)).1 = none := by
  refine find_min_range_none_of_no_accept _ _ _ _ _ (by norm_num) (by norm_num)
    (by norm_num) ?_
  intro k
  exact no_accept_of_id (1/8) (by norm_num) _

/-- Characterization of `find_min_range` in terms of its scan positions
`start + k * delta`, `k : ℕ` (shared helper behind claim C1). -/
theorem find_min_range_some_iff (g : α → α) (delta twoPi : α) (fuel : Nat)
    (j : Joint α) (lo hi : α) (hd : 0 < delta) (hw : 0 < twoPi)
    (hfuel : twoPi ≤ (fuel : α) * delta) :
    ((find_min_range (tail_distance g) delta twoPi fuel j).1 = some (lo, hi)) ↔
      ∃ k : Nat, j.angle + (k : α) * delta < j.angle + twoPi ∧
        lo = j.angle + (k : α) * delta - delta ∧ hi = j.angle + (k : α) * delta + delta ∧
        accepts g delta (j.angle + (k : α) * delta) ∧
        ∀ m : Nat, m < k → ¬ accepts g delta (j.angle + (m : α) * delta) := by
  rw [find_min_range_eq_loop]
  exact find_min_range_loop_some_iff g j.mode j.angle delta twoPi hd hw fuel j.angle
    (Joint.mk RotMode.axisAngle j.angle) lo hi le_rfl (by linarith)

/-- Claim C1 (amended and proved): with a positive step, a positive
window half-width, and fuel covering the window, the bracket scan of
`find_min_range` moves only in the `+delta` direction from the starting
angle (its scan positions are `start + k*delta` for `k : ℕ`; the lower
half of the ±window is never explored), and it returns the bracket
`[a - delta, a + delta]` exactly for the first scan position `a` below
the upper window bound whose center sample is less than or equal to both
outer samples — a non-strict minimum of the three samples, ties
included, not the unique strictly-smallest sample that the original
claim requires.  Instantiating `delta := π/8`, `twoPi := 2π`,
`fuel ≥ 16` gives the source's default invocation. -/
theorem claim1_bracket_scan_characterization (g : α → α) (delta twoPi : α) (fuel : Nat)
    (j : Joint α) (lo hi : α) (hd : 0 < delta) (hw : 0 < twoPi)
    (hfuel : twoPi ≤ (fuel : α) * delta) :
    ((find_min_range (tail_distance g) delta twoPi fuel j).1 = some (lo, hi)) ↔
      ∃ k : Nat, j.angle + (k : α) * delta < j.angle + twoPi ∧
        lo = j.angle + (k : α) * delta - delta ∧ hi = j.angle + (k : α) * delta + delta ∧
        accepts g delta (j.angle + (k : α) * delta) ∧
        ∀ m : Nat, m < k → ¬ accepts g delta (j.angle + (m : α) * delta) :=
  find_min_range_some_iff g delta twoPi fuel j lo hi hd hw hfuel

/-- Witness for claim C1: for the oracle `g x = (x - 1)^2`, step 1/8 and
window half-width 2 (the iteration structure of π/8 and 2π), starting at
angle 0, the scan returns the bracket `(7/8, 9/8)` around the eighth scan
position `a = 1`. -/
theorem claim1_bracket_scan_characterization_witness :
    (find_min_range (tail_distance (fun x : ℚ => (x - 1)^2)) (1/8) 2 32
      (Joint.mk RotMode.axisAngle 0)).1 = some (7/8, 9/8) := by
  rw [claim1_bracket_scan_characterization (fun x : ℚ => (x - 1)^2) (1/8) 2 32
    (Joint.mk RotMode.axisAngle 0) (7/8) (9/8) (by norm_num) (by norm_num) (by norm_num)]
  refine ⟨8, by norm_num, by norm_num, by norm_num, ?_, ?_⟩
  · constructor <;> norm_num
  · intro m hm
    interval_cases m <;> · rintro ⟨-, h2⟩; norm_num at h2

/-- Counterexample for claim C1 as stated, at the source constants
`delta = π/8`, window `±2π`, over ℝ.  Part one: with the constant-zero
oracle no scan position has a strictly smallest center sample, yet the
scan still returns a bracket (at its very first, tied, position) — so
acceptance is non-strict, not the claimed unique strict minimum.  Part
two: with the oracle `g x = (x + π)^2`, whose unique strict minimum lies
at `-π`, strictly inside the ±2π window but *below* the start angle 0,
the scan returns no bracket at all — it does not cover the window in
both directions, only upward. -/
theorem claim1_bracket_scan_cex :
    ((find_min_range (tail_distance (fun _ : ℝ => 0)) (Real.pi/8) (2*Real.pi) 32
        (Joint.mk RotMode.axisAngle 0)).1 = some (0 - Real.pi/8, 0 + Real.pi/8)
      ∧ (∀ x : ℝ, ¬ strictly_accepts (fun _ : ℝ => (0:ℝ)) (Real.pi/8) x))
    ∧ ((find_min_range (tail_distance (fun x : ℝ => (x + Real.pi)^2)) (Real.pi/8)
          (2*Real.pi) 32 (Joint.mk RotMode.axisAngle 0)).1 = none
      ∧ strictly_accepts (fun x : ℝ => (x + Real.pi)^2) (Real.pi/8) (-Real.pi)
      ∧ 0 - 2*Real.pi < -Real.pi ∧ -Real.pi < 0 + 2*Real.pi) := by
  have hpi := Real.pi_pos
  refine ⟨⟨?_, ?_⟩, ?_, ⟨?_, ?_⟩, by linarith, by linarith⟩
  · rw [find_min_range_some_iff (fun _ : ℝ => 0) (Real.pi/8) (2*Real.pi) 32
      (Joint.mk RotMode.axisAngle 0) (0 - Real.pi/8) (0 + Real.pi/8)
      (by linarith) (by linarith) (by push_cast; linarith)]
    refine ⟨0, ?_, ?_, ?_, ⟨le_refl 0, le_refl 0⟩, ?_⟩
    · simp only [Joint.angle_mk]
      push_cast
      linarith
    · simp only [Joint.angle_mk]
      push_cast
      ring
    · simp only [Joint.angle_mk]
      push_cast
      ring
    · intro m hm
      exact absurd hm (Nat.not_lt_zero m)
  · rintro x ⟨h1, -⟩
    exact lt_irrefl 0 h1
  · refine find_min_range_none_of_no_accept _ _ _ _ _ (by linarith) (by linarith)
      (by push_cast; linarith) ?_
    rintro k ⟨h1, -⟩
    simp only [Joint.angle_mk] at h1
    have hx : 0 ≤ (k : ℝ) * (Real.pi/8) := by positivity
    nlinarith [hx, hpi]
  · show (-Real.pi + Real.pi)^2 < (-Real.pi - Real.pi/8 + Real.pi)^2
    nlinarith [hpi]
  · show (-Real.pi + Real.pi)^2 < (-Real.pi + Real.pi/8 + Real.pi)^2
    nlinarith [hpi]

/-- Claim C2 (code bug, evaluated): with a strictly increasing tail
distance oracle (no interior minimum) the bracket search exhausts its
window; `correct_rotation` then subscripts the Python `None`, raising an
uncaught `TypeError` (modelled by `Except.error`), and the joint is left
with rotation mode `AXIS_ANGLE` — not restored to the `QUATERNION` mode
it had before the search, contradicting the claimed
rotation-left-unmodified failure outcome. -/
theorem claim2_nonconvergence_crash :
    ∃ s : Joint ℚ,
      correct_rotation (fun t : ℚ => t) (1/8) 2 32 32 (Joint.mk RotMode.quaternion 0)
          = Except.error s
        ∧ s.mode = RotMode.axisAngle
        ∧ s.mode ≠ RotMode.quaternion := by
  have hnone := fmr_id_none
  have hmode := find_min_range_mode_of_none (fun t : ℚ => t) (1/8) 2 32
    (Joint.mk RotMode.quaternion 0) hnone
  refine ⟨(find_min_range (tail_distance (fun t : ℚ => t)) (1/8) 2 32
    (Joint.mk RotMode.quaternion 0)).2, ?_, hmode, ?_⟩
  · have hpair : find_min_range (tail_distance (fun t : ℚ => t)) (1/8) 2 32
        (Joint.mk RotMode.quaternion 0)
        = (none, (find_min_range (tail_distance (fun t : ℚ => t)) (1/8) 2 32
            (Joint.mk RotMode.quaternion 0)).2) :=
      Prod.ext_iff.mpr ⟨hnone, rfl⟩
    unfold correct_rotation
    rw [hpair]
  · rw [hmode]
    simp

/-- Claim C3 (code bug, evaluated): every evaluation of `tail_distance`
does restore the rotation mode of the joint (first conjunct, fully
general), but the non-convergence exit of `find_min_range` does not:
with the strictly increasing oracle `g t = t`, a scan entered in
`QUATERNION` mode returns no bracket and leaves the joint in
`AXIS_ANGLE` mode. -/
theorem claim3_mode_restore_on_exit :
    (∀ (g : ℚ → ℚ) (a : ℚ) (j : Joint ℚ), ((tail_distance g a j).2).mode = j.mode)
    ∧ (find_min_range (tail_distance (fun t : ℚ => t)) (1/8) 2 32
        (Joint.mk RotMode.quaternion 0)).1 = none
    ∧ ((find_min_range (tail_distance (fun t : ℚ => t)) (1/8) 2 32
        (Joint.mk RotMode.quaternion 0)).2).mode = RotMode.axisAngle
    ∧ RotMode.axisAngle ≠ RotMode.quaternion := by
  refine ⟨fun g a j => tail_distance_mode g a j, fmr_id_none, ?_, by simp⟩
  exact find_min_range_mode_of_none (fun t : ℚ => t) (1/8) 2 32
    (Joint.mk RotMode.quaternion 0) fmr_id_none

/-- When the bracket is narrower than the precision, the midpoint of a
bracket containing `x0` is within the precision of `x0`. -/
theorem ternary_mid_bound (l r x0 p : α) (hl : l ≤ x0) (hr : x0 ≤ r)
    (hlt : |r - l| < p) : |(l + r)/2 - x0| < p := by
  rw [abs_of_nonneg (by linarith)] at hlt
  rw [abs_lt]
  constructor <;> linarith

/-- Ternary search on the quadratic objective `(x - x0)^2` sampled
through `tail_distance`: if the bracket contains `x0` and the fuel `n`
satisfies `(r - l) * (2/3)^n < p`, the search terminates through its own
width test and returns a midpoint within `p` of `x0`.  At every step the
third on the side of the larger interior sample is discarded, the width
shrinks by the factor 2/3, and `x0` stays inside the bracket. -/
theorem ternarySearch_quad (x0 p : α) (hp : 0 < p) :
    ∀ (n : Nat) (l r : α) (j : Joint α), l ≤ x0 → x0 ≤ r →
      (r - l) * (2/3)^n < p →
      ∃ m : α,
        (ternarySearch (tail_distance (fun x : α => (x - x0)^2)) p (n + 1) l r j).1 = some m
        ∧ |m - x0| < p := by
  intro n
  induction n with
  | zero =>
    intro l r j hl hr hwidth
    simp only [pow_zero, mul_one] at hwidth
    have habs : |r - l| < p := by
      rw [abs_of_nonneg (by linarith)]
      exact hwidth
    refine ⟨(l + r)/2, ?_, ternary_mid_bound l r x0 p hl hr habs⟩
    simp only [ternarySearch]
    rw [if_pos habs]
  | succ n ih =>
    intro l r j hl hr hwidth
    by_cases habs : |r - l| < p
    · refine ⟨(l + r)/2, ?_, ternary_mid_bound l r x0 p hl hr habs⟩
      simp only [ternarySearch]
      rw [if_pos habs]
    · have hge : p ≤ r - l := by
        rw [abs_of_nonneg (by linarith)] at habs
        linarith
      have hlr : l < r := by linarith
      have hthird : l + (r - l)/3 < r - (r - l)/3 := by linarith
      simp only [ternarySearch]
      rw [if_neg habs]
      simp only [tail_distance_fst]
      by_cases hcmp :
          ((l + (r - l)/3 - x0)^2 : α) > ((r - (r - l)/3 - x0)^2 : α)
      · rw [if_pos hcmp]
        have hlT : l + (r - l)/3 ≤ x0 := by
          by_contra hcon
          push_neg at hcon
          have h1 : (0:α) < r - (r - l)/3 - (l + (r - l)/3) := by linarith
          have h2 : (0:α) < r - (r - l)/3 + (l + (r - l)/3) - 2*x0 := by linarith
          nlinarith [mul_pos h1 h2]
        have hw' : (r - (l + (r - l)/3)) * (2/3)^n < p := by
          have he : (r - (l + (r - l)/3)) * (2/3)^n = (r - l) * ((2/3)^n * (2/3)) := by
            ring
          rw [he, ← pow_succ]
          exact hwidth
        exact ih (l + (r - l)/3) r _ hlT hr hw'
      · rw [if_neg hcmp]
        push_neg at hcmp
        have hrT : x0 ≤ r - (r - l)/3 := by
          by_contra hcon
          push_neg at hcon
          have h1 : (0:α) < r - (r - l)/3 - (l + (r - l)/3) := by linarith
          have h2 : (0:α) < 2*x0 - (r - (r - l)/3) - (l + (r - l)/3) := by linarith
          nlinarith [mul_pos h1 h2]
        have hw' : (r - (r - l)/3 - l) * (2/3)^n < p := by
          have he : (r - (r - l)/3 - l) * (2/3)^n = (r - l) * ((2/3)^n * (2/3)) := by
            ring
          rw [he, ← pow_succ]
          exact hwidth
        exact ih l (r - (r - l)/3) _ hl hrT hw'

/-- Claim C6 (confirmed): ternary search on the synthetic unimodal
quadratic `f x = (x - x0)^2` (sampled through the minimizer objective
`tail_distance`) with bracket `[x0 - 1, x0 + 1]` and absolute precision
0.01 terminates through its own width test and returns the bracket
midpoint of the final bracket, which lies within 0.01 of `x0`; at each
step the third on the side of the larger interior third-point sample is
discarded (see `ternarySearch` and `ternarySearch_quad`). -/
theorem claim6_ternary_search_quadratic :
    ∀ (x0 : ℚ) (j : Joint ℚ), ∃ m : ℚ,
      (ternarySearch (tail_distance (fun x : ℚ => (x - x0)^2)) (1/100) 20 (x0 - 1) (x0 + 1)
        j).1 = some m
      ∧ |m - x0| ≤ 1/100 := by
  intro x0 j
  have hw : ((x0 + 1) - (x0 - 1) : ℚ) * (2/3)^19 < 1/100 := by
    have he : ((x0 + 1) - (x0 - 1) : ℚ) = 2 := by ring
    rw [he]
    norm_num
  obtain ⟨m, hm, hb⟩ := ternarySearch_quad x0 (1/100) (by norm_num) 19 (x0 - 1) (x0 + 1) j
    (by linarith) (by linarith) hw
  exact ⟨m, hm, hb.le⟩

/-
  Space Converter (`get_pose_matrix_in_other_space`, rig_ui.py lines
  99-125).  Blender matrices are 4x4 homogeneous transforms; matrix
  entries are modelled over an arbitrary field (ℚ for executable
  witnesses; the spec reads the law as exact over the reals).
-/

/-- A 4x4 transform matrix, as used by `mathutils.Matrix`. -/
abbrev Mat4 (K : Type) := Matrix (Fin 4) (Fin 4) K

section SpaceConverter

variable {K : Type} [Field K] [DecidableEq K]

/-- mathutils `Matrix.inverted()`: the adjugate divided by the
determinant.  Over a field this coincides with the Mathlib nonsingular
inverse `A⁻¹` for every matrix (both give the zero matrix when the
determinant vanishes, where the source host API would raise). -/
def inverted (A : Mat4 K) : Mat4 K := A.det⁻¹ • A.adjugate

/-- The data `get_pose_matrix_in_other_space` reads from a pose bone: its
rest matrix (`pose_bone.bone.matrix_local`) and, when a parent exists,
the pair of the parent's current pose matrix (`pose_bone.parent.matrix`)
and the parent's rest matrix (`pose_bone.parent.bone.matrix_local`). -/
structure PoseBone (K : Type) where
  matrix_local : Mat4 K
  parent : Option (Mat4 K × Mat4 K)

/-- Embedding of `get_pose_matrix_in_other_space(mat, pose_bone)`
(rig_ui.py lines 99-125): `rest_inv * (par_rest * (par_inv * mat))`,
where without a parent the source assigns the identity matrix directly
to `par_mat`, `par_inv` and `par_rest` (it does not invert anything). -/
def get_pose_matrix_in_other_space (mat : Mat4 K) (pose_bone : PoseBone K) : Mat4 K :=
  let rest := pose_bone.matrix_local
  let rest_inv := inverted rest
  match pose_bone.parent with
  | some pr =>
    let par_mat := pr.1
    let par_inv := inverted par_mat
    let par_rest := pr.2
    rest_inv * (par_rest * (par_inv * mat))
  | none =>
    let par_mat : Mat4 K := 1
    let par_inv : Mat4 K := 1
    let par_rest : Mat4 K := 1
    rest_inv * (par_rest * (par_inv * mat))

/-- The parent's current pose matrix, the identity when parentless. -/
def parent_pose (b : PoseBone K) : Mat4 K :=
  match b.parent with
  | some pr => pr.1
  | none => 1

/-- The parent's rest matrix, the identity when parentless. -/
def parent_rest (b : PoseBone K) : Mat4 K :=
  match b.parent with
  | some pr => pr.2
  | none => 1

/-- The Space Converter formula exactly as the spec words it (§4.1):
`local = rest⁻¹ · (parentRest · (parentPoseInverse · worldMatrix))`, with
parent pose and parent rest treated as identity for a parentless bone. -/
def convert_spec (mat : Mat4 K) (b : PoseBone K) : Mat4 K :=
  inverted b.matrix_local * (parent_rest b * (inverted (parent_pose b) * mat))

/-- Composing a local matrix back to world space, following the words of
claim C4 and §8: `parentPose * parentRest⁻¹ * rest * localMatrix`. -/
def convertToWorld (mat : Mat4 K) (b : PoseBone K) : Mat4 K :=
  parent_pose b * (inverted (parent_rest b) * (b.matrix_local * mat))

theorem inverted_eq_inv (A : Mat4 K) : inverted A = A⁻¹ := by
  rw [Matrix.inv_def, Ring.inverse_eq_inv]
  rfl

theorem inverted_one : inverted (1 : Mat4 K) = 1 := by
  rw [inverted_eq_inv, inv_one]

theorem inverted_zero : inverted (0 : Mat4 K) = 0 := by
  unfold inverted
  rw [Matrix.det_zero ⟨(0 : Fin 4)⟩, inv_zero, zero_smul]

/-- Shared helper: the code path of the converter agrees with the spec
formula for every bone, in particular through the parentless branch
where the source writes literal identities instead of inverting one. -/
theorem gp_eq_convert_spec (mat : Mat4 K) (b : PoseBone K) :
    get_pose_matrix_in_other_space mat b = convert_spec mat b := by
  cases hb : b.parent with
  | some pr =>
    simp [get_pose_matrix_in_other_space, convert_spec, parent_pose, parent_rest, hb]
  | none =>
    simp [get_pose_matrix_in_other_space, convert_spec, parent_pose, parent_rest, hb,
      inverted_one]

/-- Claim C5 (confirmed): for every world/armature-space matrix and every
target bone, `get_pose_matrix_in_other_space` returns exactly
`rest⁻¹ * (parentRest * (parentPose⁻¹ * worldMatrix))`, with parent pose
and parent rest both taken to be the identity when the bone has no
parent. -/
theorem claim5_space_converter_formula (mat : Mat4 K) (b : PoseBone K) :
    get_pose_matrix_in_other_space mat b =
      inverted b.matrix_local * (parent_rest b * (inverted (parent_pose b) * mat)) :=
  gp_eq_convert_spec mat b

/-- Claim C4 (amended and proved): the round trip additionally needs the
parent *rest* matrix to be invertible; with rest, parent pose and parent
rest all nonsingular, converting a local matrix to world space and back
is the identity, exactly, over any field. -/
theorem claim4_roundtrip (mat : Mat4 K) (b : PoseBone K)
    (h1 : b.matrix_local.det ≠ 0) (h2 : (parent_pose b).det ≠ 0)
    (h3 : (parent_rest b).det ≠ 0) :
    get_pose_matrix_in_other_space (convertToWorld mat b) b = mat := by
  rw [gp_eq_convert_spec]
  unfold convert_spec convertToWorld
  simp only [inverted_eq_inv]
  rw [Matrix.nonsing_inv_mul_cancel_left _ _ (isUnit_iff_ne_zero.mpr h2)]
  rw [Matrix.mul_nonsing_inv_cancel_left _ _ (isUnit_iff_ne_zero.mpr h3)]
  rw [Matrix.nonsing_inv_mul_cancel_left _ _ (isUnit_iff_ne_zero.mpr h1)]

/-- Witness for claim C4 at a concrete bone over ℚ: identity rest,
identity parent pose, identity parent rest. -/
theorem claim4_roundtrip_witness :
    get_pose_matrix_in_other_space
        (convertToWorld 1 (PoseBone.mk (1 : Mat4 ℚ) (some (1, 1))))
        (PoseBone.mk (1 : Mat4 ℚ) (some (1, 1))) = 1 :=
  claim4_roundtrip 1 (PoseBone.mk (1 : Mat4 ℚ) (some (1, 1)))
    (by simp) (by simp [parent_pose]) (by simp [parent_rest])

/-- Counterexample for claim C4 as stated: a bone whose rest matrix and
parent pose matrix are both invertible (both identity) but whose parent
rest matrix is singular (the zero matrix).  The claimed hypotheses hold,
yet the round trip collapses everything to the zero matrix and does not
reproduce the identity input. -/
theorem claim4_roundtrip_cex :
    ((PoseBone.mk (1 : Mat4 ℚ) (some (1, 0))).matrix_local).det ≠ 0
    ∧ (parent_pose (PoseBone.mk (1 : Mat4 ℚ) (some (1, 0)))).det ≠ 0
    ∧ get_pose_matrix_in_other_space
        (convertToWorld 1 (PoseBone.mk (1 : Mat4 ℚ) (some (1, 0))))
        (PoseBone.mk (1 : Mat4 ℚ) (some (1, 0))) ≠ 1 := by
  refine ⟨by simp, by simp [parent_pose], ?_⟩
  have hw : convertToWorld 1 (PoseBone.mk (1 : Mat4 ℚ) (some (1, 0))) = 0 := by
    simp [convertToWorld, parent_pose, parent_rest, inverted_zero]
  rw [hw]
  have hg : get_pose_matrix_in_other_space (0 : Mat4 ℚ)
      (PoseBone.mk (1 : Mat4 ℚ) (some (1, 0))) = 0 := by
    simp [get_pose_matrix_in_other_space]
  rw [hg]
  exact zero_ne_one

end SpaceConverter

/-
  Pole Resolver (`perpendicular_vector`, rig_ui.py lines 13-28, and
  `match_pole_target`, lines 226-276).
-/

/-- A 3-component vector (`mathutils.Vector`). -/
structure V3 (α : Type) where
  x : α
  y : α
  z : α
deriving DecidableEq, Repr

theorem V3.ext_components {u v : V3 α} (hx : u.x = v.x) (hy : u.y = v.y)
    (hz : u.z = v.z) : u = v := by
  cases u
  cases v
  simp_all

def vadd (u v : V3 α) : V3 α := V3.mk (u.x + v.x) (u.y + v.y) (u.z + v.z)

def vsub (u v : V3 α) : V3 α := V3.mk (u.x - v.x) (u.y - v.y) (u.z - v.z)

def vsmul (t : α) (v : V3 α) : V3 α := V3.mk (t * v.x) (t * v.y) (t * v.z)

/-- Division of a vector by a scalar (`ikv/2` in the source). -/
def vdivs (v : V3 α) (t : α) : V3 α := V3.mk (v.x / t) (v.y / t) (v.z / t)

def dot (u v : V3 α) : α := u.x * v.x + u.y * v.y + u.z * v.z

/-- `mathutils.Vector.cross`. -/
def cross (u v : V3 α) : V3 α :=
  V3.mk (u.y * v.z - u.z * v.y) (u.z * v.x - u.x * v.z) (u.x * v.y - u.y * v.x)

/-- The axis-aligned helper vector chosen inside `perpendicular_vector`
(rig_ui.py lines 21-24): the X axis when `|v.x| < |v.y|`, else the Y
axis. -/
def helper_axis (v : V3 α) : V3 α :=
  if |v.x| < |v.y| then V3.mk 1 0 0 else V3.mk 0 1 0

/-- Embedding of `perpendicular_vector(v)` (rig_ui.py lines 13-28):
the cross product of `v` with the chosen helper axis.  The result is not
normalized, exactly as the source docstring warns. -/
def perpendicular_vector (v : V3 α) : V3 α := cross v (helper_axis v)

/-- The chain vector of `match_pole_target` (rig_ui.py lines 236-241):
`b - a` where `a` is the head of the first IK bone and
`b = ik_last.position + ik_last.vector` the tail of the last. -/
def chain_vector (a b : V3 α) : V3 α := vsub b a

/-- The armature-space pole location computed inside `set_pole`
(rig_ui.py line 251): `ploc = a + (ikv/2) + pvi`. -/
def pole_location (a ikv pvi : V3 α) : V3 α := vadd (vadd a (vdivs ikv 2)) pvi

theorem dot_cross_left (u w : V3 α) : dot (cross u w) u = 0 := by
  simp only [dot, cross]
  ring

theorem dot_vsmul_left (t : α) (u w : V3 α) : dot (vsmul t u) w = t * dot u w := by
  simp only [dot, vsmul]
  ring

theorem pole_location_sub_mid (a v w : V3 α) :
    vsub (pole_location a v w) (vadd a (vdivs v 2)) = w := by
  refine V3.ext_components ?_ ?_ ?_ <;>
    simp [pole_location, vsub, vadd, vdivs]

/-- Claim C8 (confirmed): for a nonzero chain vector `v`, the helper axis
chosen in `perpendicular_vector` is never a scalar multiple of `v`, the
cross product is nonzero and orthogonal to `v`; consequently, for any
unit vector `u` obtained by positively rescaling that cross product (the
`normalized()` of the source) and any offset length `L ≥ 0`, the scaled
offset `L • u` is orthogonal to `v` with squared length exactly `L²`,
and the pole location `a + v/2 + L • u` differs from the chain midpoint
`a + v/2` by exactly that offset: its squared distance from the midpoint
is `L²` and it lies in the plane through the midpoint perpendicular to
`v`. -/
theorem claim8_pole_placement (v : V3 α) (hv : v ≠ V3.mk 0 0 0) :
    (∀ t : α, helper_axis v ≠ vsmul t v)
    ∧ perpendicular_vector v ≠ V3.mk 0 0 0
    ∧ dot (perpendicular_vector v) v = 0
    ∧ ∀ (L t : α) (u a : V3 α), 0 ≤ L → dot u u = 1 → 0 < t →
        u = vsmul t (perpendicular_vector v) →
        dot (vsmul L u) v = 0
        ∧ dot (vsmul L u) (vsmul L u) = L^2
        ∧ vsub (pole_location a v (vsmul L u)) (vadd a (vdivs v 2)) = vsmul L u
        ∧ dot (vsub (pole_location a v (vsmul L u)) (vadd a (vdivs v 2)))
            (vsub (pole_location a v (vsmul L u)) (vadd a (vdivs v 2))) = L^2
        ∧ dot (vsub (pole_location a v (vsmul L u)) (vadd a (vdivs v 2))) v = 0 := by
  obtain ⟨vx, vy, vz⟩ := v
  have hv' : ¬ (vx = 0 ∧ vy = 0 ∧ vz = 0) := by
    intro h
    exact hv (by simp [h.1, h.2.1, h.2.2])
  have hperp : dot (perpendicular_vector (V3.mk vx vy vz)) (V3.mk vx vy vz) = 0 :=
    dot_cross_left _ _
  have hnonpar : ∀ t : α, helper_axis (V3.mk vx vy vz) ≠ vsmul t (V3.mk vx vy vz) := by
    intro t h
    by_cases hb : |vx| < |vy|
    · simp only [helper_axis, if_pos hb, vsmul, V3.mk.injEq] at h
      obtain ⟨h1, h2, -⟩ := h
      rcases mul_eq_zero.mp h2.symm with ht | hy
      · rw [ht] at h1
        simp at h1
      · rw [hy] at hb
        simp at hb
        exact absurd hb (not_lt.mpr (abs_nonneg vx))
    · simp only [helper_axis, if_neg hb, vsmul, V3.mk.injEq] at h
      obtain ⟨h1, h2, -⟩ := h
      rcases mul_eq_zero.mp h1.symm with ht | hx
      · rw [ht] at h2
        simp at h2
      · push_neg at hb
        rw [hx] at hb
        simp only [abs_zero] at hb
        have hy : vy = 0 := abs_nonpos_iff.mp hb
        rw [hy, mul_zero] at h2
        simp at h2
  have hpv : perpendicular_vector (V3.mk vx vy vz) ≠ V3.mk 0 0 0 := by
    by_cases hb : |vx| < |vy|
    · intro h
      simp only [perpendicular_vector, helper_axis, if_pos hb, cross, V3.mk.injEq] at h
      have hy : vy = 0 := by
        have := h.2.2
        linarith [this]
      rw [hy] at hb
      simp at hb
      exact absurd hb (not_lt.mpr (abs_nonneg vx))
    · intro h
      simp only [perpendicular_vector, helper_axis, if_neg hb, cross, V3.mk.injEq] at h
      push_neg at hb
      have hz : vz = 0 := by linarith [h.1]
      have hx : vx = 0 := by linarith [h.2.2]
      rw [hx] at hb
      simp only [abs_zero] at hb
      exact hv' ⟨hx, abs_nonpos_iff.mp hb, hz⟩
  refine ⟨hnonpar, hpv, hperp, ?_⟩
  rintro L t u a hL hu ht rfl
  have hduv : dot (vsmul t (perpendicular_vector (V3.mk vx vy vz))) (V3.mk vx vy vz) = 0 := by
    rw [dot_vsmul_left, hperp, mul_zero]
  have g1 : dot (vsmul L (vsmul t (perpendicular_vector (V3.mk vx vy vz)))) (V3.mk vx vy vz)
      = 0 := by
    rw [dot_vsmul_left, hduv, mul_zero]
  have g2 : dot (vsmul L (vsmul t (perpendicular_vector (V3.mk vx vy vz))))
      (vsmul L (vsmul t (perpendicular_vector (V3.mk vx vy vz)))) = L^2 := by
    have hexp : ∀ w : V3 α, dot (vsmul L w) (vsmul L w) = L^2 * dot w w := by
      intro w
      simp only [dot, vsmul]
      ring
    rw [hexp, hu, mul_one]
  have g3 := pole_location_sub_mid a (V3.mk vx vy vz)
    (vsmul L (vsmul t (perpendicular_vector (V3.mk vx vy vz))))
  refine ⟨g1, g2, g3, ?_, ?_⟩
  · rw [g3]
    exact g2
  · rw [g3]
    exact g1

/-- Witness for claim C8: the concrete chain of the spec —
`chainStart = (0,0,0)`, `chainEnd.position = (1,0,0)`,
`chainEnd.direction = (1,0,0)`, so `v = (2,0,0)`, with
`offsetLength = 1`.  The helper axis is Y, the cross product is
`(0,0,2)`, its normalization is `u = (0,0,1)` (the positive rescaling by
`t = 1/2`), and the pole location `(1,0,1)` sits at squared distance `1`
from the chain midpoint `(1,0,0)`, in the plane perpendicular to `v`. -/
theorem claim8_pole_placement_witness :
    chain_vector (V3.mk (0:ℚ) 0 0) (vadd (V3.mk 1 0 0) (V3.mk 1 0 0)) = V3.mk 2 0 0
    ∧ pole_location (V3.mk (0:ℚ) 0 0) (V3.mk 2 0 0) (vsmul 1 (V3.mk 0 0 1)) = V3.mk 1 0 1
    ∧ dot (vsub (pole_location (V3.mk (0:ℚ) 0 0) (V3.mk 2 0 0) (vsmul 1 (V3.mk 0 0 1)))
        (vadd (V3.mk (0:ℚ) 0 0) (vdivs (V3.mk 2 0 0) 2)))
        (vsub (pole_location (V3.mk (0:ℚ) 0 0) (V3.mk 2 0 0) (vsmul 1 (V3.mk 0 0 1)))
        (vadd (V3.mk (0:ℚ) 0 0) (vdivs (V3.mk 2 0 0) 2))) = 1
    ∧ dot (vsub (pole_location (V3.mk (0:ℚ) 0 0) (V3.mk 2 0 0) (vsmul 1 (V3.mk 0 0 1)))
        (vadd (V3.mk (0:ℚ) 0 0) (vdivs (V3.mk 2 0 0) 2))) (V3.mk 2 0 0) = 0 := by
  have hmain := claim8_pole_placement (V3.mk (2:ℚ) 0 0)
    (by simp [V3.mk.injEq])
  obtain ⟨-, -, -, hgen⟩ := hmain
  have hinst := hgen 1 (1/2) (V3.mk 0 0 1) (V3.mk 0 0 0) (by norm_num)
    (by norm_num [dot]) (by norm_num)
    (by refine V3.ext_components ?_ ?_ ?_ <;>
          norm_num [vsmul, perpendicular_vector, helper_axis, cross])
  obtain ⟨-, h2, -, h4, h5⟩ := hinst
  refine ⟨by norm_num [chain_vector, vsub, vadd], ?_, ?_, ?_⟩
  · refine V3.ext_components ?_ ?_ ?_ <;>
      norm_num [pole_location, vadd, vdivs, vsmul]
  · have he : (1:ℚ)^2 = 1 := one_pow 2
    rw [← he]
    exact h4
  · exact h5

/-
  Pole disambiguation (`match_pole_target`, rig_ui.py lines 260-276).
  The two candidate placements `pv1` (rotated by `+angle`) and `pv2`
  (rotated by `-angle`) are applied in turn through `set_pole`; the
  residual orientation error measured after placing the pole at a
  position is abstracted into the oracle `resid`, which is legitimate
  because the scene state — and hence
  `rotation_difference(ik_first.matrix, match_bone.matrix)` — is a
  deterministic function of the currently applied pole position.  The
  state is the list of successive `set_pole` applications, in order.
-/

/-- One `set_pole` application appends the applied position to the
trace. -/
def set_pole {V : Type} (trace : List V) (pvi : V) : List V := trace ++ [pvi]

/-- The tail of `match_pole_target` (rig_ui.py lines 260-276): place the
unrotated offset `pv`, place `pv1` and measure, place `pv2` and measure,
then re-apply `pv1` only when its residual is strictly smaller. -/
def match_pole_target_disambig {V : Type} (resid : V → α) (pv pv1 pv2 : V) : List V :=
  let t0 := set_pole ([] : List V) pv
  let t1 := set_pole t0 pv1
  let ang1 := resid pv1
  let t2 := set_pole t1 pv2
  let ang2 := resid pv2
  if ang1 < ang2 then set_pole t2 pv1 else t2

/-- Claim C7 (confirmed): the `+angle` candidate `pv1` is re-applied as
the final pole position exactly when its residual error is strictly
smaller than that of the `-angle` candidate `pv2`; otherwise — including
the tie `resid pv1 = resid pv2` — no further placement happens and `pv2`,
applied last, remains the final pole position. -/
theorem claim7_pole_disambiguation {V : Type} (resid : V → α) (pv pv1 pv2 : V) :
    match_pole_target_disambig resid pv pv1 pv2
        = (if resid pv1 < resid pv2 then [pv, pv1, pv2, pv1] else [pv, pv1, pv2])
    ∧ (match_pole_target_disambig resid pv pv1 pv2).getLast?
        = some (if resid pv1 < resid pv2 then pv1 else pv2) := by
  by_cases h : resid pv1 < resid pv2 <;>
    simp [match_pole_target_disambig, set_pole, h]

/-
  Rotation difference (`rotation_difference`, rig_ui.py lines 31-40).
  The two matrices enter only through the unit quaternions of their
  rotations (`mat.to_quaternion()`), so the primitive is embedded at the
  quaternion level; `to_quaternion` of a rotation matrix is a unit
  quaternion, which is the hypothesis of the identity law.  `acos` is
  `Real.arccos`, which forces this corner of the model to live over ℝ
  and to be noncomputable.
-/

/-- A quaternion (w, x, y, z), as produced by `mat.to_quaternion()`. -/
structure Quat where
  w : ℝ
  x : ℝ
  y : ℝ
  z : ℝ

/-- `Quaternion.dot`. -/
def qdot (p q : Quat) : ℝ := p.w * q.w + p.x * q.x + p.y * q.y + p.z * q.z

/-- Embedding of `rotation_difference(mat1, mat2)` (rig_ui.py lines
31-40): `acos(min(1, max(-1, q1.dot(q2)))) * 2`, folded to `2π - angle`
when the result exceeds π. -/
noncomputable def rotation_difference (q1 q2 : Quat) : ℝ :=
  let angle := Real.arccos (min 1 (max (-1) (qdot q1 q2))) * 2
  if angle > Real.pi then -angle + 2 * Real.pi else angle

/-- Claim C9 (confirmed): the rotation difference is symmetric, always
lies in `[0, π]`, and vanishes on identical inputs — the latter for every
unit quaternion, hence for the quaternion of every rotation matrix. -/
theorem claim9_rotation_difference_props :
    (∀ q1 q2 : Quat, rotation_difference q1 q2 = rotation_difference q2 q1)
    ∧ (∀ q1 q2 : Quat,
        0 ≤ rotation_difference q1 q2 ∧ rotation_difference q1 q2 ≤ Real.pi)
    ∧ (∀ q : Quat, qdot q q = 1 → rotation_difference q q = 0) := by
  refine ⟨?_, ?_, ?_⟩
  · intro q1 q2
    have h : qdot q1 q2 = qdot q2 q1 := by
      unfold qdot
      ring
    simp only [rotation_difference, h]
  · intro q1 q2
    simp only [rotation_difference]
    have h0 : 0 ≤ Real.arccos (min 1 (max (-1) (qdot q1 q2))) :=
      Real.arccos_nonneg _
    have h1 : Real.arccos (min 1 (max (-1) (qdot q1 q2))) ≤ Real.pi :=
      Real.arccos_le_pi _
    by_cases hgt : Real.arccos (min 1 (max (-1) (qdot q1 q2))) * 2 > Real.pi
    · rw [if_pos hgt]
      constructor <;> linarith
    · rw [if_neg hgt]
      push_neg at hgt
      constructor <;> linarith
  · intro q hq
    simp only [rotation_difference, hq]
    have hmax : max (-1 : ℝ) 1 = 1 := by norm_num
    rw [hmax, min_self, Real.arccos_one, zero_mul]
    rw [if_neg (not_lt.mpr (le_of_lt Real.pi_pos))]

/-- Witness for claim C9: the identity rotation quaternion `(1,0,0,0)`
is a unit quaternion and the rotation difference with itself is 0. -/
theorem claim9_rotation_difference_props_witness :
    rotation_difference (Quat.mk 1 0 0 0) (Quat.mk 1 0 0 0) = 0 :=
  claim9_rotation_difference_props.2.2 (Quat.mk 1 0 0 0) (by norm_num [qdot])

/-
  Leg IK-to-FK stretch step (`ik2fk_leg`, rig_ui.py lines 481-485).
  Custom bone properties are an association list keyed by strings; the
  guard probes the keys with the transposed spelling while the copy uses
  the correct spelling.
-/

/-- The transposed-spelling key probed by the guard. -/
def misspelled_key : String := "stretch_lenght"

/-- The correctly spelled stretch property key. -/
def stretch_key : String := "stretch_length"

/-- A bone carrying custom properties, as an association list. -/
structure PropBone (α : Type) where
  props : List (String × α)

/-- `bone.keys()`. -/
def PropBone.keys (b : PropBone α) : List String := b.props.map Prod.fst

/-- `bone[k]` read access; `none` models a Python `KeyError`. -/
def PropBone.get (b : PropBone α) (k : String) : Option α := List.lookup k b.props

/-- `bone[k] = v` write access. -/
def PropBone.set (b : PropBone α) (k : String) (v : α) : PropBone α :=
  PropBone.mk ((k, v) :: b.props)

/-- Embedding of the stretch step of `ik2fk_leg` (rig_ui.py lines
481-485): if both `footi` and `thigh` carry the transposed key
`stretch_lenght`, copy `thigh["stretch_length"]` into
`footi["stretch_length"]` (raising `KeyError`, modelled `none`, if the
correctly spelled source key is absent); otherwise leave `footi`
untouched. -/
def ik2fk_leg_stretch (footi thigh : PropBone α) : Option (PropBone α) :=
  if misspelled_key ∈ footi.keys ∧ misspelled_key ∈ thigh.keys then
    match thigh.get stretch_key with
    | some v => some (footi.set stretch_key v)
    | none => none
  else
    some footi

/-- Claim C10 (confirmed): the stretch-scalar copy runs exactly when both
bones carry the transposed key `stretch_lenght`; a rig carrying only the
correctly spelled `stretch_length` key never triggers it, and `footi` —
in particular its stretch property — is left unchanged by the step in
that case. -/
theorem claim10_stretch_key_guard (footi thigh : PropBone α) :
    (¬ (misspelled_key ∈ footi.keys ∧ misspelled_key ∈ thigh.keys) →
      ik2fk_leg_stretch footi thigh = some footi)
    ∧ (misspelled_key ∉ footi.keys →
        ik2fk_leg_stretch footi thigh = some footi
        ∧ (ik2fk_leg_stretch footi thigh).map (fun b => b.get stretch_key)
            = some (footi.get stretch_key))
    ∧ (∀ v : α, misspelled_key ∈ footi.keys → misspelled_key ∈ thigh.keys →
        thigh.get stretch_key = some v →
        ik2fk_leg_stretch footi thigh = some (footi.set stretch_key v)) := by
  refine ⟨?_, ?_, ?_⟩
  · intro h
    simp [ik2fk_leg_stretch, h]
  · intro h
    have h' : ¬ (misspelled_key ∈ footi.keys ∧ misspelled_key ∈ thigh.keys) :=
      fun hc => h hc.1
    constructor
    · simp [ik2fk_leg_stretch, h']
    · simp [ik2fk_leg_stretch, h']
  · intro v h1 h2 h3
    simp [ik2fk_leg_stretch, h1, h2, h3]

/-- Witness for claim C10: a rig whose bones carry only the correctly
spelled `stretch_length` key leaves `footi` untouched, while bones
carrying the transposed key trigger the copy from `thigh`. -/
theorem claim10_stretch_key_guard_witness :
    ik2fk_leg_stretch (PropBone.mk [(stretch_key, (1:ℚ))])
        (PropBone.mk [(stretch_key, (5:ℚ))])
      = some (PropBone.mk [(stretch_key, (1:ℚ))])
    ∧ ik2fk_leg_stretch (PropBone.mk [(misspelled_key, (0:ℚ)), (stretch_key, 1)])
        (PropBone.mk [(misspelled_key, (0:ℚ)), (stretch_key, 5)])
      = some ((PropBone.mk [(misspelled_key, (0:ℚ)), (stretch_key, 1)]).set stretch_key 5) := by
  constructor
  · exact ((claim10_stretch_key_guard (PropBone.mk [(stretch_key, (1:ℚ))])
      (PropBone.mk [(stretch_key, (5:ℚ))])).2.1 (by decide)).1
  · exact (claim10_stretch_key_guard (PropBone.mk [(misspelled_key, (0:ℚ)), (stretch_key, 1)])
      (PropBone.mk [(misspelled_key, (0:ℚ)), (stretch_key, 5)])).2.2 5
      (by decide) (by decide) (by decide)

end RigUI
